import Mathlib

/-!
Verification of the tinykv transactional layer specification.

The repository ships two source files: the transaction-command test harness
(`kv/tikv/transaction/commands_test.go`) and the generated protobuf code for
`BatchRaftMessage` (`proto/pkg/tikvpb/tikvpb.pb.go`).  The MVCC command logic
itself (mvcc codec, Get, Prewrite, Commit, Cleanup, CheckTxnStatus) is not part
of the provided sources, so those operations are modelled from the
specification (`spec.md` sections 3, 4.1, 4.3-4.7), as noted in each
definition's doc comment.  The `BatchRaftMessage` wire functions are embedded
directly from the Go source.
-/

namespace TinyKV

/-! ## Versioned key codec

Modelled from the spec, sections 3 and 4.1: an `EncodedKey` is
`UserKey ++ encode(Timestamp)` where the 64-bit timestamp is encoded in eight
big-endian bytes, complemented so that for a fixed user key larger timestamps
sort first (byte-lexicographically).  Bytes are modelled as `Nat` values
(< 256 for genuine bytes), keys as `List Nat`, timestamps as `Nat` values
(< 2^64 for genuine 64-bit timestamps). -/

/-- Big-endian byte encoding of `n`, `w` bytes wide (most significant first). -/
def beBytes : Nat → Nat → List Nat
  | 0, _ => []
  | w + 1, n => beBytes w (n / 256) ++ [n % 256]

/-- Big-endian byte decoding: fold the digits most-significant first. -/
def fromBE (xs : List Nat) : Nat := xs.foldl (fun a b => a * 256 + b) 0

/-- Modelled from the spec: `encode(key, ts)` (the missing `mvcc.EncodeKey`)
appends the complemented timestamp (`2^64 - 1 - ts`) in eight big-endian
bytes, so that for a fixed key larger timestamps produce lexicographically
smaller encoded keys. -/
def encodeKey (k : List Nat) (ts : Nat) : List Nat :=
  k ++ beBytes 8 (2 ^ 64 - 1 - ts)

/-- Modelled from the spec: `decode` (the missing `mvcc.DecodeUserKey` and
timestamp decoder) splits off the eight-byte suffix and recovers the user key
and timestamp exactly. -/
def decodeKey (ek : List Nat) : Option (List Nat × Nat) :=
  if 8 ≤ ek.length then
    some (ek.take (ek.length - 8), 2 ^ 64 - 1 - fromBE (ek.drop (ek.length - 8)))
  else
    none

/-- Strict byte-lexicographic order on byte strings, as a boolean function:
a proper initial segment is smaller, otherwise the first differing byte
decides. -/
def bytesLt : List Nat → List Nat → Bool
  | [], [] => false
  | [], _ :: _ => true
  | _ :: _, [] => false
  | a :: as, b :: bs => decide (a < b) || (decide (a = b) && bytesLt as bs)

/-! ## Column-family model

Modelled from the spec, section 3, and the test harness
(`commands_test.go`, `init`/`assert`): three logical stores held as
association lists over raw byte keys.  The Default and Write families are
addressed at `encodeKey userKey ts` (the test harness writes
`mvcc.EncodeKey(kv.key, ts)` for `CfDefault`/`CfWrite`), the Lock family at
the raw user key (`kv.key` for `CfLock`).  Lock and write-record values are
kept structurally rather than serialized. -/

/-- Kind of a version marker: spec section 3, `WriteRecord.kind` is one of
`Put`, `Delete`, `Rollback`; locks created by Prewrite carry the mutation's
kind (`Put`/`Delete`). -/
inductive WriteKind where
  | put
  | del
  | rollback
deriving DecidableEq, Repr

/-- Modelled from the spec: a Lock record
`{ primary, start_ts, ttl, kind }` (section 3).  Inline values are not
modelled: Prewrite writes the value to the Default family at `start_ts`
directly, as the data model prescribes for `Value`. -/
structure LockRec where
  primary : List Nat
  ts : Nat
  ttl : Nat
  kind : WriteKind
deriving DecidableEq, Repr

/-- Modelled from the spec: a WriteRecord `{ start_ts, kind }`, stored in the
Write family keyed by `encodeKey key commit_ts` (section 3). -/
structure WriteRecord where
  startTs : Nat
  kind : WriteKind
deriving DecidableEq, Repr

/-- The three column families (spec section 3): Default and Write keyed by
encoded keys, Lock keyed by the raw user key. -/
structure State where
  cfDefault : List (List Nat × List Nat)
  cfLock : List (List Nat × LockRec)
  cfWrite : List (List Nat × WriteRecord)
deriving DecidableEq, Repr

/-- Association-list point read (`get(column_family, key)`). -/
def alGet {α : Type} (l : List (List Nat × α)) (k : List Nat) : Option α :=
  (l.find? (fun p => decide (p.1 = k))).map (·.2)

/-- Association-list delete. -/
def alDel {α : Type} (l : List (List Nat × α)) (k : List Nat) :
    List (List Nat × α) :=
  l.filter (fun p => decide (p.1 ≠ k))

/-- Association-list put: replaces any existing entry for the key. -/
def alPut {α : Type} (l : List (List Nat × α)) (k : List Nat) (v : α) :
    List (List Nat × α) :=
  (k, v) :: alDel l k

/-- Every key of a column family's entry list is a versioned encoded key
(the key discipline of the Default and Write families). -/
def encodedKeysOnly {α : Type} (entries : List (List Nat × α)) : Prop :=
  ∀ p ∈ entries, ∃ k2 ts2, p.1 = encodeKey k2 ts2

/-- All write records of a user key, as `(commit_ts, record)` pairs, obtained
by decoding the Write family's encoded keys (spec section 3: the ordered
sequence of WriteRecords for a UserKey is the authoritative version
history). -/
def writesFor (s : State) (k : List Nat) : List (Nat × WriteRecord) :=
  s.cfWrite.filterMap (fun p =>
    match decodeKey p.1 with
    | some (k2, cts) => if k2 = k then some (cts, p.2) else none
    | none => none)

/-- The entry with the largest commit timestamp, if any. -/
def maxByTs : List (Nat × WriteRecord) → Option (Nat × WriteRecord)
  | [] => none
  | p :: rest =>
    match maxByTs rest with
    | none => some p
    | some q => if q.1 < p.1 then some p else some q

/-- Modelled from the spec (section 4.3): the newest WriteRecord for `k` with
`commit_ts ≤ ts`. -/
def newestWriteLE (s : State) (k : List Nat) (ts : Nat) :
    Option (Nat × WriteRecord) :=
  maxByTs ((writesFor s k).filter (fun p => decide (p.1 ≤ ts)))

/-- `(cts, r)` is the unique newest write record of `k` with commit
timestamp at most `ts`: it is in the history, visible at `ts`, and strictly
newer than every other visible record. -/
def IsNewestLE (s : State) (k : List Nat) (ts cts : Nat) (r : WriteRecord) :
    Prop :=
  (cts, r) ∈ writesFor s k ∧ cts ≤ ts ∧
    ∀ p ∈ writesFor s k, p.1 ≤ ts → p ≠ (cts, r) → p.1 < cts

/-- Modelled from the spec (sections 4.5-4.7): the most recent write record of
`k` whose transaction is `start_ts` (the trace left by commit or rollback of
that transaction). -/
def findWriteByStart (s : State) (k : List Nat) (startTs : Nat) :
    Option (Nat × WriteRecord) :=
  maxByTs ((writesFor s k).filter (fun p => decide (p.2.startTs = startTs)))

/-- Lock information carried by a read's lock-conflict failure
(spec section 4.3: primary, start_ts, ttl). -/
structure LockInfo where
  primary : List Nat
  ts : Nat
  ttl : Nat
deriving DecidableEq, Repr

/-- Modelled from the spec (section 4.3, Get): fail with the lock's
information if a Lock with `start_ts ≤ ts` exists; otherwise read via the
newest WriteRecord with `commit_ts ≤ ts`: absent or `Delete`/`Rollback` means
not-found (`none`), `Put` fetches the Default entry at
`(key, start_ts-of-that-record)`. -/
def mvccGet (s : State) (k : List Nat) (ts : Nat) :
    Except LockInfo (Option (List Nat)) :=
  match alGet s.cfLock k with
  | some l =>
    if l.ts ≤ ts then
      .error ⟨l.primary, l.ts, l.ttl⟩
    else
      mvccRead s k ts
  | none => mvccRead s k ts
where
  mvccRead (s : State) (k : List Nat) (ts : Nat) :
      Except LockInfo (Option (List Nat)) :=
    match newestWriteLE s k ts with
    | none => .ok none
    | some (_, r) =>
      match r.kind with
      | .put => .ok (alGet s.cfDefault (encodeKey k r.startTs))
      | .del => .ok none
      | .rollback => .ok none

/-- A per-key mutation of a Prewrite batch (spec section 4.4). -/
inductive MutKind where
  | put (v : List Nat)
  | del
deriving DecidableEq, Repr

/-- A keyed mutation of a Prewrite batch. -/
structure Mutation where
  key : List Nat
  kind : MutKind
deriving DecidableEq, Repr

/-- The write-record kind a mutation's lock carries. -/
def kindOfMut : MutKind → WriteKind
  | .put _ => .put
  | .del => .del

/-- Per-key abort reasons of a Prewrite batch (spec sections 4.4 and 7). -/
inductive KeyErr where
  | writeConflict
  | keyIsLocked
deriving DecidableEq, Repr

/-- Modelled from the spec (section 4.4, steps 1 and 2): the conflict check
(any WriteRecord with `commit_ts ≥ start_ts`) is performed first, then the
lock check (any Lock, regardless of its `start_ts`). -/
def keyCheck (s : State) (startTs : Nat) (k : List Nat) : Option KeyErr :=
  if (writesFor s k).any (fun p => decide (startTs ≤ p.1)) then
    some .writeConflict
  else if (alGet s.cfLock k).isSome then
    some .keyIsLocked
  else
    none

/-- Applying one validated mutation (spec section 4.4, step 3): a `Put` writes
its value to the Default family at `(key, start_ts)` and a Lock
`{primary, start_ts, ttl, kind}`; a `Delete` writes only the Lock. -/
def applyMutation (primary : List Nat) (startTs ttl : Nat) (s : State)
    (m : Mutation) : State :=
  let s1 :=
    match m.kind with
    | .put v => { s with cfDefault := alPut s.cfDefault (encodeKey m.key startTs) v }
    | .del => s
  { s1 with cfLock := alPut s1.cfLock m.key ⟨primary, startTs, ttl, kindOfMut m.kind⟩ }

/-- Modelled from the spec (section 4.4): validate every key of the batch
first; on any failure report the per-key error list and leave the state
unchanged, otherwise lock every key. -/
def prewrite (s : State) (startTs ttl : Nat) (primary : List Nat)
    (muts : List Mutation) : List (List Nat × KeyErr) × State :=
  let errs := muts.filterMap (fun m => (keyCheck s startTs m.key).map (fun e => (m.key, e)))
  if errs.isEmpty then
    ([], muts.foldl (applyMutation primary startTs ttl) s)
  else
    (errs, s)

/-- Whole-command failures of Commit / Cleanup (spec sections 4.5-4.6, 7). -/
inductive TxnErr where
  | lockMismatch
  | txnRolledBack
  | txnNotFound
  | txnCommitted
deriving DecidableEq, Repr

/-- Modelled from the spec (section 4.5): with a Lock owned by `start_ts`,
convert it into a WriteRecord at `commit_ts` and delete it; with a Lock owned
by another transaction, fail; with no Lock, consult the transaction's write
trace: a commit at this `start_ts` with matching `commit_ts` is idempotent
success, a Rollback is `TxnRolledBack`, anything else is `TxnNotFound`. -/
def commitKey (s : State) (startTs commitTs : Nat) (k : List Nat) :
    Except TxnErr State :=
  match alGet s.cfLock k with
  | some l =>
    if l.ts = startTs then
      .ok { s with
        cfWrite := alPut s.cfWrite (encodeKey k commitTs) ⟨startTs, l.kind⟩,
        cfLock := alDel s.cfLock k }
    else
      .error .lockMismatch
  | none =>
    match findWriteByStart s k startTs with
    | some (cts, r) =>
      if r.kind = .rollback then .error .txnRolledBack
      else if cts = commitTs then .ok s
      else .error .txnNotFound
    | none => .error .txnNotFound

/-- Modelled from the spec (section 4.6): delete a Lock owned by `start_ts`
and append a Rollback record at `start_ts`; without such a Lock (none, or one
owned by a different transaction) inspect the write trace: committed fails,
already rolled back succeeds idempotently, untouched writes a defensive
Rollback record. -/
def cleanup (s : State) (startTs : Nat) (k : List Nat) : Except TxnErr State :=
  match alGet s.cfLock k with
  | some l =>
    if l.ts = startTs then
      .ok { s with
        cfLock := alDel s.cfLock k,
        cfWrite := alPut s.cfWrite (encodeKey k startTs) ⟨startTs, .rollback⟩ }
    else
      cleanupNoLock s startTs k
  | none => cleanupNoLock s startTs k
where
  cleanupNoLock (s : State) (startTs : Nat) (k : List Nat) :
      Except TxnErr State :=
    match findWriteByStart s k startTs with
    | some (_, r) =>
      if r.kind = .rollback then .ok s else .error .txnCommitted
    | none =>
      .ok { s with
        cfWrite := alPut s.cfWrite (encodeKey k startTs) ⟨startTs, .rollback⟩ }

/-- Outcome reported by CheckTxnStatus (spec section 4.7). -/
inductive TxnStatus where
  | committed (commitTs : Nat)
  | rolledBack
  | locked (ttlRemaining : Nat)
deriving DecidableEq, Repr

/-- Modelled from the spec (section 4.7): a commit trace at `lock_ts` reports
Committed, a rollback trace reports RolledBack; otherwise a Lock with
`start_ts = lock_ts` is rolled back and reported RolledBack when its ttl is
exceeded (`current_ts − lock_ts > ttl`) and reported Locked with the
remaining ttl otherwise; with neither trace nor such a Lock, a defensive
Rollback record is written and RolledBack reported. -/
def checkTxnStatus (s : State) (primary : List Nat) (lockTs currentTs : Nat) :
    TxnStatus × State :=
  match findWriteByStart s primary lockTs with
  | some (cts, r) =>
    if r.kind = .rollback then (.rolledBack, s) else (.committed cts, s)
  | none =>
    match alGet s.cfLock primary with
    | some l =>
      if l.ts = lockTs then
        if l.ttl < currentTs - lockTs then
          (.rolledBack, { s with
            cfLock := alDel s.cfLock primary,
            cfWrite := alPut s.cfWrite (encodeKey primary lockTs) ⟨lockTs, .rollback⟩ })
        else
          (.locked (l.ttl - (currentTs - lockTs)), s)
      else
        ctsDefensive s primary lockTs
    | none => ctsDefensive s primary lockTs
where
  ctsDefensive (s : State) (primary : List Nat) (lockTs : Nat) :
      TxnStatus × State :=
    (.rolledBack, { s with
      cfWrite := alPut s.cfWrite (encodeKey primary lockTs) ⟨lockTs, .rollback⟩ })

/-! ## `BatchRaftMessage` wire format

Embedded from `src/proto/pkg/tikvpb/tikvpb.pb.go`.  Byte slices are modelled
as `List Nat`; machine-width effects (`uint64` accumulation, the signed
`int32`/`int64` casts and sign checks) appear as explicit `% 2 ^ 64`,
`% 2 ^ 32` and `2 ^ 63 ≤ _` tests.  The nested `raft_serverpb.RaftMessage`
elements belong to an external package, so each is represented by the byte
string its `MarshalTo` produces: its `Size()` is that string's length and its
`Unmarshal` on exactly that string reconstructs it (the identity here). -/

/-- Errors (and the one `panic`) the generated unmarshalling code can raise:
`io.ErrUnexpectedEOF`, `ErrIntOverflowTikvpb`, `ErrInvalidLengthTikvpb`, the
wiretype/tag `fmt.Errorf` cases, and the `panic("unreachable")` at the end of
`skipTikvpb`.  `fuelOut` is the guard of the fuel-indexed model of
`skipTikvpb`'s group loop; it is never returned for any input because every
skipped element consumes at least one byte. -/
inductive PErr where
  | unexpectedEOF
  | intOverflow
  | invalidLength
  | endGroupNonGroup
  | illegalTag
  | wrongWireType
  | illegalWireType
  | panicked
  | fuelOut
deriving DecidableEq, Repr

/-- Embedded from `encodeVarintTikvpb`: base-128 varint, least significant
group first, continuation bit `0x80` on all but the last byte. -/
def encodeVarintTikvpb (v : Nat) : List Nat :=
  if v < 128 then [v] else (v % 128 + 128) :: encodeVarintTikvpb (v / 128)
termination_by v
decreasing_by exact Nat.div_lt_self (by omega) (by omega)

/-- Embedded from `sovTikvpb`: the number of bytes the varint encoding of `x`
occupies. -/
def sovTikvpb (x : Nat) : Nat :=
  if x >>> 7 = 0 then 1 else 1 + sovTikvpb (x >>> 7)
termination_by x
decreasing_by
  rename_i h
  rw [Nat.shiftRight_eq_div_pow] at h ⊢
  exact Nat.div_lt_self (by omega) (by norm_num)

/-- Embedded from the `BatchRaftMessage` struct: the repeated `Msgs` field
(each element stood for by its wire bytes) and the `XXX_unrecognized`
buffer.  `XXX_NoUnkeyedLiteral` and `XXX_sizecache` carry no behaviour. -/
structure BatchRaftMessage where
  msgs : List (List Nat)
  xxxUnrecognized : List Nat
deriving DecidableEq, Repr

/-- Embedded from `(*BatchRaftMessage).MarshalTo`: for each element, tag byte
`0xa` (field 1, wiretype 2), the varint of the element's size, the element's
bytes; then the unrecognized bytes. -/
def BatchRaftMessage.MarshalTo (m : BatchRaftMessage) : List Nat :=
  (m.msgs.flatMap (fun msg => 0xa :: (encodeVarintTikvpb msg.length ++ msg)))
    ++ m.xxxUnrecognized

/-- Embedded from `(*BatchRaftMessage).Marshal`: allocates `m.Size()` bytes
and returns the prefix `MarshalTo` wrote. -/
def BatchRaftMessage.Marshal (m : BatchRaftMessage) : List Nat :=
  m.MarshalTo

/-- Embedded from `(*BatchRaftMessage).Size`:
`1 + l + sovTikvpb(l)` per element plus the unrecognized bytes. -/
def BatchRaftMessage.Size (m : BatchRaftMessage) : Nat :=
  (m.msgs.map (fun e => 1 + e.length + sovTikvpb e.length)).sum
    + m.xxxUnrecognized.length

/-- Embedded from the varint-reading loops of `Unmarshal` and `skipTikvpb`
(all textually identical in the generated code): returns the accumulated
value and the remaining bytes.  The `shift >= 64` overflow test precedes the
end-of-input test, as in the source; accumulation is `uint64`, hence the
`% 2 ^ 64`. -/
def readVarintLoop (shift acc : Nat) (xs : List Nat) :
    Except PErr (Nat × List Nat) :=
  if 64 ≤ shift then .error .intOverflow
  else
    match xs with
    | [] => .error .unexpectedEOF
    | b :: rest =>
      let acc2 := (acc ||| ((b &&& 0x7f) <<< shift)) % 2 ^ 64
      if b < 0x80 then .ok (acc2, rest) else readVarintLoop (shift + 7) acc2 rest

/-- A successful varint read consumes at least one byte (termination measure
of the unmarshalling loop). -/
theorem readVarintLoop_length (shift acc : Nat) (xs : List Nat) (v : Nat)
    (rest : List Nat) (h : readVarintLoop shift acc xs = .ok (v, rest)) :
    rest.length < xs.length := by
  induction xs generalizing shift acc with
  | nil =>
    rw [readVarintLoop] at h
    split at h <;> simp_all
  | cons b bs ih =>
    rw [readVarintLoop] at h
    split at h
    · simp_all
    · simp only at h
      split at h
      · simp only [Except.ok.injEq, Prod.mk.injEq] at h
        simp [← h.2]
      · exact Nat.lt_trans (ih _ _ h) (by simp)

mutual

/-- Embedded from `skipTikvpb` (fuel-indexed; `skipGroupA` is the
`wireType == 3` group loop).  Receives the remaining input starting at the
field's tag and returns the number of bytes the field occupies (tag
included).  The empty input falls through the `for iNdEx < l` loop to
`panic("unreachable")`. -/
def skipTikvpbA : Nat → List Nat → Except PErr Nat
  | 0, _ => .error .fuelOut
  | _ + 1, [] => .error .panicked
  | fuel + 1, c :: cs =>
    match readVarintLoop 0 0 (c :: cs) with
    | .error e => .error e
    | .ok (wire, rest) =>
      let consumed := (c :: cs).length - rest.length
      if wire &&& 7 = 0 then
        match readVarintLoop 0 0 rest with
        | .error e => .error e
        | .ok (_, rest2) => .ok ((c :: cs).length - rest2.length)
      else if wire &&& 7 = 1 then .ok (consumed + 8)
      else if wire &&& 7 = 2 then
        match readVarintLoop 0 0 rest with
        | .error e => .error e
        | .ok (len, rest2) =>
          if 2 ^ 63 ≤ len then .error .invalidLength
          else .ok ((c :: cs).length - rest2.length + len)
      else if wire &&& 7 = 3 then skipGroupA fuel rest consumed
      else if wire &&& 7 = 4 then .ok consumed
      else if wire &&& 7 = 5 then .ok (consumed + 4)
      else .error .illegalWireType

/-- The group loop of `skipTikvpb`: read an inner tag; an end-group tag stops
the loop, anything else is skipped recursively from the tag's first byte.
`xs` is the remaining input at the loop's cursor, `done` the cursor's offset
from the skipped field's tag. -/
def skipGroupA : Nat → List Nat → Nat → Except PErr Nat
  | 0, _, _ => .error .fuelOut
  | fuel + 1, xs, done =>
    match readVarintLoop 0 0 xs with
    | .error e => .error e
    | .ok (innerWire, rest) =>
      if innerWire &&& 7 = 4 then .ok (done + (xs.length - rest.length))
      else
        match skipTikvpbA fuel xs with
        | .error e => .error e
        | .ok next => skipGroupA fuel (xs.drop next) (done + next)

end

/-- `skipTikvpb` with enough fuel for any input (each skipped element
consumes at least one byte, so twice the input length bounds the call
depth). -/
def skipTikvpb (xs : List Nat) : Except PErr Nat :=
  skipTikvpbA (2 * xs.length + 2) xs

/-- A successful skip consumes at least one byte, and the group loop never
returns less than its starting offset (termination measure facts for the
unmarshalling loop). -/
theorem skipTikvpbA_pos (f : Nat) :
    (∀ xs n, skipTikvpbA f xs = .ok n → 1 ≤ n) ∧
    (∀ xs done n, skipGroupA f xs done = .ok n → done ≤ n) := by
  induction f with
  | zero =>
    constructor
    · intro xs n h
      simp [skipTikvpbA] at h
    · intro xs done n h
      simp [skipGroupA] at h
  | succ f ih =>
    constructor
    · intro xs n h
      match xs with
      | [] => simp [skipTikvpbA] at h
      | c :: cs =>
        rw [skipTikvpbA] at h
        match hv : readVarintLoop 0 0 (c :: cs) with
        | .error e => rw [hv] at h; exact absurd h (by simp)
        | .ok (wire, rest) =>
          have hlen := readVarintLoop_length _ _ _ _ _ hv
          rw [hv] at h
          simp only at h
          split at h
          · match hv2 : readVarintLoop 0 0 rest with
            | .error e => rw [hv2] at h; exact absurd h (by simp)
            | .ok (v2, rest2) =>
              have hlen2 := readVarintLoop_length _ _ _ _ _ hv2
              rw [hv2] at h
              simp only [Except.ok.injEq] at h
              omega
          · split at h
            · simp only [Except.ok.injEq] at h
              omega
            · split at h
              · match hv2 : readVarintLoop 0 0 rest with
                | .error e => rw [hv2] at h; exact absurd h (by simp)
                | .ok (v2, rest2) =>
                  have hlen2 := readVarintLoop_length _ _ _ _ _ hv2
                  rw [hv2] at h
                  simp only at h
                  split at h
                  · exact absurd h (by simp)
                  · simp only [Except.ok.injEq] at h
                    omega
              · split at h
                · have := ih.2 rest ((c :: cs).length - rest.length) n h
                  omega
                · split at h
                  · simp only [Except.ok.injEq] at h
                    omega
                  · split at h
                    · simp only [Except.ok.injEq] at h
                      omega
                    · exact absurd h (by simp)
    · intro xs done n h
      rw [skipGroupA] at h
      match hv : readVarintLoop 0 0 xs with
      | .error e => rw [hv] at h; exact absurd h (by simp)
      | .ok (innerWire, rest) =>
        rw [hv] at h
        simp only at h
        split at h
        · simp only [Except.ok.injEq] at h
          omega
        · match hs : skipTikvpbA f xs with
          | .error e => rw [hs] at h; exact absurd h (by simp)
          | .ok next =>
            rw [hs] at h
            have h1 := ih.1 xs next hs
            have h2 := ih.2 (xs.drop next) (done + next) n h
            omega

/-- `skipTikvpb` consumes at least one byte when it succeeds. -/
theorem skipTikvpb_pos (xs : List Nat) (n : Nat) (h : skipTikvpb xs = .ok n) :
    1 ≤ n :=
  (skipTikvpbA_pos (2 * xs.length + 2)).1 xs n h

/-- Embedded from the main loop of `(*BatchRaftMessage).Unmarshal`: read a
tag; wiretype 4 and non-positive `int32` field numbers are errors; field 1
(wiretype 2 required) appends the length-delimited slice to `Msgs` (the
nested `RaftMessage.Unmarshal` being the identity on its own bytes); any
other field is skipped from the tag onwards (`iNdEx = preIndex` in the
source) and its bytes appended to `XXX_unrecognized`. -/
def unmarshalLoop (msgs : List (List Nat)) (unrec : List Nat)
    (xs : List Nat) : Except PErr BatchRaftMessage :=
  match xs with
  | [] => .ok ⟨msgs, unrec⟩
  | c :: cs =>
    match h : readVarintLoop 0 0 (c :: cs) with
    | .error e => .error e
    | .ok (wire, rest) =>
      if wire &&& 7 = 4 then .error .endGroupNonGroup
      else if (wire >>> 3) % 2 ^ 32 = 0 ∨ 2 ^ 31 ≤ (wire >>> 3) % 2 ^ 32 then
        .error .illegalTag
      else if (wire >>> 3) % 2 ^ 32 = 1 then
        if wire &&& 7 ≠ 2 then .error .wrongWireType
        else
          match h2 : readVarintLoop 0 0 rest with
          | .error e => .error e
          | .ok (msglen, rest2) =>
            if 2 ^ 63 ≤ msglen then .error .invalidLength
            else if rest2.length < msglen then .error .unexpectedEOF
            else unmarshalLoop (msgs ++ [rest2.take msglen]) unrec
              (rest2.drop msglen)
      else
        match h3 : skipTikvpb (c :: cs) with
        | .error e => .error e
        | .ok skippy =>
          if (c :: cs).length < skippy then .error .unexpectedEOF
          else unmarshalLoop msgs (unrec ++ (c :: cs).take skippy)
            ((c :: cs).drop skippy)
termination_by xs.length
decreasing_by
  · have hx := readVarintLoop_length 0 0 _ _ _ h
    have h2x := readVarintLoop_length 0 0 _ _ _ h2
    simp only [List.length_drop]
    omega
  · have hx := skipTikvpb_pos _ _ h3
    simp only [List.length_drop, List.length_cons]
    omega

/-- Embedded from `(*BatchRaftMessage).Unmarshal`: run the main loop on the
whole input with empty accumulators. -/
def BatchRaftMessage.Unmarshal (dAtA : List Nat) :
    Except PErr BatchRaftMessage :=
  unmarshalLoop [] [] dAtA

/-! ### Codec lemmas -/

theorem beBytes_length (w n : Nat) : (beBytes w n).length = w := by
  induction w generalizing n with
  | zero => rfl
  | succ w ih => simp [beBytes, ih]

theorem fromBE_append_one (xs : List Nat) (b : Nat) :
    fromBE (xs ++ [b]) = fromBE xs * 256 + b := by
  simp [fromBE, List.foldl_append]

theorem fromBE_beBytes (w n : Nat) : fromBE (beBytes w n) = n % 256 ^ w := by
  induction w generalizing n with
  | zero => simp [beBytes, fromBE, Nat.mod_one]
  | succ w ih =>
    rw [beBytes, fromBE_append_one, ih]
    have h1 : (256 : Nat) ^ (w + 1) = 256 * 256 ^ w := by ring
    rw [h1, Nat.mod_mul]
    ring

theorem decodeKey_encodeKey (k : List Nat) (ts : Nat) (h : ts < 2 ^ 64) :
    decodeKey (encodeKey k ts) = some (k, ts) := by
  have hlen : (encodeKey k ts).length = k.length + 8 := by
    simp [encodeKey, beBytes_length]
  have h8 : 8 ≤ (encodeKey k ts).length := by omega
  have hsub : (encodeKey k ts).length - 8 = k.length := by omega
  have htake : (encodeKey k ts).take (k.length) = k :=
    List.take_left' rfl
  have hdrop : (encodeKey k ts).drop (k.length) = beBytes 8 (2 ^ 64 - 1 - ts) :=
    List.drop_left' rfl
  have hfrom : fromBE (beBytes 8 (2 ^ 64 - 1 - ts)) = 2 ^ 64 - 1 - ts := by
    rw [fromBE_beBytes]
    have : (256 : Nat) ^ 8 = 2 ^ 64 := by norm_num
    rw [this]
    omega
  rw [decodeKey, if_pos h8, hsub, htake, hdrop, hfrom]
  have : 2 ^ 64 - 1 - (2 ^ 64 - 1 - ts) = ts := by omega
  rw [this]

theorem encodeKey_inj (k1 : List Nat) (t1 : Nat) (k2 : List Nat) (t2 : Nat)
    (h1 : t1 < 2 ^ 64) (h2 : t2 < 2 ^ 64)
    (heq : encodeKey k1 t1 = encodeKey k2 t2) : k1 = k2 ∧ t1 = t2 := by
  have d1 := decodeKey_encodeKey k1 t1 h1
  have d2 := decodeKey_encodeKey k2 t2 h2
  rw [heq, d2] at d1
  simp only [Option.some.injEq, Prod.mk.injEq] at d1
  exact ⟨d1.1.symm, d1.2.symm⟩

theorem bytesLt_append_same (k xs ys : List Nat) :
    bytesLt (k ++ xs) (k ++ ys) = bytesLt xs ys := by
  induction k with
  | nil => rfl
  | cons a k ih => simp [bytesLt, ih]

theorem bytesLt_append_of_lt (xs ys as bs : List Nat)
    (hlen : xs.length = ys.length) (h : bytesLt xs ys = true) :
    bytesLt (xs ++ as) (ys ++ bs) = true := by
  induction xs generalizing ys with
  | nil =>
    cases ys with
    | nil => simp [bytesLt] at h
    | cons b bs' => simp at hlen
  | cons a xs ih =>
    cases ys with
    | nil => simp at hlen
    | cons b ys =>
      simp only [bytesLt, Bool.or_eq_true, decide_eq_true_eq, Bool.and_eq_true] at h ⊢
      rcases h with h | ⟨hab, hrest⟩
      · exact Or.inl h
      · exact Or.inr ⟨hab, ih ys (by simpa using hlen) hrest⟩

theorem bytesLt_beBytes (w m n : Nat) (hmn : m < n) (hn : n < 256 ^ w) :
    bytesLt (beBytes w m) (beBytes w n) = true := by
  induction w generalizing m n with
  | zero => simp at hn; omega
  | succ w ih =>
    rw [beBytes, beBytes]
    have hdiv : m / 256 ≤ n / 256 := Nat.div_le_div_right (Nat.le_of_lt hmn)
    have hnd : n / 256 < 256 ^ w := by
      have h1 : (256 : Nat) ^ (w + 1) = 256 * 256 ^ w := by ring
      rw [h1] at hn
      exact Nat.div_lt_of_lt_mul hn
    rcases Nat.lt_or_ge (m / 256) (n / 256) with hlt | hge
    · exact bytesLt_append_of_lt _ _ _ _
        (by rw [beBytes_length, beBytes_length]) (ih _ _ hlt hnd)
    · have heq : m / 256 = n / 256 := Nat.le_antisymm hdiv hge
      rw [heq, bytesLt_append_same]
      have hmod : m % 256 < n % 256 := by
        have hm := Nat.div_add_mod m 256
        have hn2 := Nat.div_add_mod n 256
        omega
      simp [bytesLt, hmod]

theorem bytesLt_encodeKey (k : List Nat) (t1 t2 : Nat)
    (h12 : t1 < t2) (h2 : t2 < 2 ^ 64) :
    bytesLt (encodeKey k t2) (encodeKey k t1) = true := by
  rw [encodeKey, encodeKey, bytesLt_append_same]
  apply bytesLt_beBytes
  · omega
  · have : (256 : Nat) ^ 8 = 2 ^ 64 := by norm_num
    rw [this]
    omega

/-! ### Association-list lemmas -/

theorem alGet_alDel_same {α : Type} (l : List (List Nat × α)) (k : List Nat) :
    alGet (alDel l k) k = none := by
  induction l with
  | nil => rfl
  | cons p rest ih =>
    by_cases hp : p.1 = k
    · simpa [alDel, hp] using ih
    · simpa [alDel, alGet, hp] using ih

theorem alGet_alDel_ne {α : Type} (l : List (List Nat × α)) (k k2 : List Nat)
    (h : k2 ≠ k) : alGet (alDel l k) k2 = alGet l k2 := by
  induction l with
  | nil => rfl
  | cons p rest ih =>
    by_cases hp : p.1 = k
    · have : p.1 ≠ k2 := by rw [hp]; exact fun he => h he.symm
      simp only [alDel, List.filter]
      rw [show (decide (p.1 ≠ k)) = false by simp [hp]]
      simp only [alGet] at ih ⊢
      rw [List.find?]
      rw [show (decide (p.1 = k2)) = false by simp [this]]
      exact ih
    · simp only [alDel, List.filter]
      rw [show (decide (p.1 ≠ k)) = true by simp [hp]]
      by_cases hk2 : p.1 = k2
      · simp [alGet, List.find?, hk2]
      · simp only [alGet] at ih ⊢
        rw [List.find?, List.find?]
        rw [show (decide (p.1 = k2)) = false by simp [hk2]]
        exact ih

theorem alGet_alPut_same {α : Type} (l : List (List Nat × α)) (k : List Nat)
    (v : α) : alGet (alPut l k v) k = some v := by
  simp [alPut, alGet, List.find?]

theorem alGet_alPut_ne {α : Type} (l : List (List Nat × α)) (k k2 : List Nat)
    (v : α) (h : k2 ≠ k) : alGet (alPut l k v) k2 = alGet l k2 := by
  simp only [alPut, alGet, List.find?]
  rw [decide_eq_false (Ne.symm h)]
  exact alGet_alDel_ne l k k2 h

theorem mem_alDel {α : Type} (l : List (List Nat × α)) (k : List Nat)
    (p : List Nat × α) (h : p ∈ alDel l k) : p ∈ l :=
  List.mem_of_mem_filter h

theorem mem_alPut {α : Type} (l : List (List Nat × α)) (k : List Nat) (v : α)
    (p : List Nat × α) (h : p ∈ alPut l k v) : p = (k, v) ∨ p ∈ l := by
  rcases List.mem_cons.mp h with h1 | h2
  · exact Or.inl h1
  · exact Or.inr (mem_alDel l k p h2)

theorem alGet_mem {α : Type} (l : List (List Nat × α)) (k : List Nat) (v : α)
    (h : alGet l k = some v) : (k, v) ∈ l := by
  induction l with
  | nil => simp [alGet] at h
  | cons p rest ih =>
    simp only [alGet, List.find?] at h
    by_cases hp : p.1 = k
    · rw [show (decide (p.1 = k)) = true by simp [hp]] at h
      have hpv : p = (k, v) := by
        cases p with
        | mk a b => simp_all
      exact List.mem_cons.mpr (Or.inl hpv.symm)
    · rw [show (decide (p.1 = k)) = false by simp [hp]] at h
      exact List.mem_cons_of_mem _ (ih h)

/-! ### Version-history lemmas -/

theorem maxByTs_eq_none (L : List (Nat × WriteRecord)) :
    maxByTs L = none ↔ L = [] := by
  cases L with
  | nil => simp [maxByTs]
  | cons p rest =>
    simp only [maxByTs]
    constructor
    · intro h
      exfalso
      match hm : maxByTs rest with
      | none => rw [hm] at h; simp at h
      | some q =>
        rw [hm] at h
        simp only at h
        split at h <;> simp at h
    · intro h
      exact absurd h (by simp)

theorem maxByTs_mem (L : List (Nat × WriteRecord)) (q : Nat × WriteRecord)
    (h : maxByTs L = some q) : q ∈ L := by
  induction L generalizing q with
  | nil => simp [maxByTs] at h
  | cons p rest ih =>
    rw [maxByTs] at h
    match hm : maxByTs rest with
    | none =>
      rw [hm] at h
      have hpq : p = q := by simpa using h
      simp [← hpq]
    | some q2 =>
      rw [hm] at h
      simp only at h
      split at h
      · have hpq : p = q := by simpa using h
        simp [← hpq]
      · have hqq : q2 = q := by simpa using h
        exact List.mem_cons_of_mem _ (ih q (hqq ▸ hm))

theorem maxByTs_max (L : List (Nat × WriteRecord)) (q : Nat × WriteRecord)
    (h : maxByTs L = some q) : ∀ p ∈ L, p.1 ≤ q.1 := by
  induction L generalizing q with
  | nil => simp [maxByTs] at h
  | cons p rest ih =>
    rw [maxByTs] at h
    intro p2 hp2
    match hm : maxByTs rest with
    | none =>
      rw [hm] at h
      have hrest : rest = [] := (maxByTs_eq_none rest).mp hm
      have hpq : p = q := by simpa using h
      rcases List.mem_cons.mp hp2 with he | hm2
      · rw [he, ← hpq]
      · rw [hrest] at hm2
        simp at hm2
    | some q2 =>
      rw [hm] at h
      simp only at h
      have hq2 := ih q2 hm
      split at h <;> rename_i hlt
      · have hpq : p = q := by simpa using h
        rcases List.mem_cons.mp hp2 with he | hm2
        · rw [he, ← hpq]
        · have := hq2 p2 hm2
          rw [← hpq]
          omega
      · have hqq : q2 = q := by simpa using h
        rcases List.mem_cons.mp hp2 with he | hm2
        · rw [he, ← hqq]
          omega
        · have := hq2 p2 hm2
          rw [← hqq]
          omega

theorem maxByTs_isSome (L : List (Nat × WriteRecord)) (h : L ≠ []) :
    ∃ q, maxByTs L = some q := by
  cases L with
  | nil => exact absurd rfl h
  | cons p rest =>
    match hm : maxByTs rest with
    | none => exact ⟨p, by rw [maxByTs, hm]⟩
    | some q2 =>
      by_cases hlt : q2.1 < p.1
      · exact ⟨p, by rw [maxByTs, hm]; simp [hlt]⟩
      · exact ⟨q2, by rw [maxByTs, hm]; simp [hlt]⟩

theorem mem_writesFor_iff (s : State) (k : List Nat) (cts : Nat)
    (r : WriteRecord) :
    (cts, r) ∈ writesFor s k ↔
      ∃ ek, (ek, r) ∈ s.cfWrite ∧ decodeKey ek = some (k, cts) := by
  constructor
  · intro h
    rcases List.mem_filterMap.mp h with ⟨⟨ek, r2⟩, hmem, hf⟩
    refine ⟨ek, ?_, ?_⟩
    · match hd : decodeKey ek with
      | none => rw [hd] at hf; simp at hf
      | some (k2, cts2) =>
        rw [hd] at hf
        simp only at hf
        split at hf
        · simp only [Option.some.injEq, Prod.mk.injEq] at hf
          rw [hf.2] at hmem
          exact hmem
        · simp at hf
    · match hd : decodeKey ek with
      | none => rw [hd] at hf; simp at hf
      | some (k2, cts2) =>
        rw [hd] at hf
        simp only at hf
        split at hf <;> rename_i hk
        · simp only [Option.some.injEq, Prod.mk.injEq] at hf
          rw [hk, hf.1]
        · simp at hf
  · intro ⟨ek, hmem, hdec⟩
    exact List.mem_filterMap.mpr ⟨(ek, r), hmem, by rw [hdec]; simp⟩

theorem writesFor_cfWrite_put (s : State) (w : List (List Nat × WriteRecord))
    (k : List Nat) (ts : Nat) (r : WriteRecord) (hts : ts < 2 ^ 64) :
    (ts, r) ∈ writesFor { s with cfWrite := alPut w (encodeKey k ts) r } k := by
  apply (mem_writesFor_iff _ _ _ _).mpr
  exact ⟨encodeKey k ts, by simp [alPut], decodeKey_encodeKey k ts hts⟩

theorem newestWriteLE_of_isNewest (s : State) (k : List Nat) (ts cts : Nat)
    (r : WriteRecord) (h : IsNewestLE s k ts cts r) :
    newestWriteLE s k ts = some (cts, r) := by
  obtain ⟨hmem, hle, hmax⟩ := h
  have hmemC : (cts, r) ∈ (writesFor s k).filter (fun p => decide (p.1 ≤ ts)) :=
    List.mem_filter.mpr ⟨hmem, by simp [hle]⟩
  obtain ⟨q, hq⟩ :=
    maxByTs_isSome _ (List.ne_nil_of_mem hmemC)
  have hqmem := maxByTs_mem _ _ hq
  obtain ⟨hqW, hqts⟩ := List.mem_filter.mp hqmem
  have hqts2 : q.1 ≤ ts := by simpa using hqts
  have hcq : cts ≤ q.1 := maxByTs_max _ _ hq _ hmemC
  by_cases he : q = (cts, r)
  · rw [newestWriteLE, hq, he]
  · have := hmax q hqW hqts2 he
    omega

theorem newestWriteLE_eq_none (s : State) (k : List Nat) (ts : Nat)
    (h : ∀ p ∈ writesFor s k, ¬ p.1 ≤ ts) : newestWriteLE s k ts = none := by
  rw [newestWriteLE]
  apply (maxByTs_eq_none _).mpr
  rw [List.filter_eq_nil]
  intro p hp
  simp [h p hp]

/-! ### Claim theorems -/

/-- C1: For every user key `k` and read timestamp `ts`: if no Lock on `k`
with `start_ts ≤ ts` exists, `Get(k, ts)` returns the value of the newest
WriteRecord for `k` with `commit_ts ≤ ts` when that record's kind is Put
(the value fetched from the Default family at `(k, that record's start_ts)`),
and returns not-found when no such record exists or when the newest such
record's kind is Delete or Rollback; if a Lock on `k` with `start_ts ≤ ts`
exists, Get fails with KeyIsLocked carrying the lock's primary, start_ts and
ttl, and Locks with `start_ts > ts` never block the read. -/
theorem C1_get_semantics (s : State) (k : List Nat) (ts : Nat) :
    (∀ l, alGet s.cfLock k = some l → l.ts ≤ ts →
      mvccGet s k ts = .error ⟨l.primary, l.ts, l.ttl⟩) ∧
    ((∀ l, alGet s.cfLock k = some l → ts < l.ts) →
      ((∀ p ∈ writesFor s k, ¬ p.1 ≤ ts) → mvccGet s k ts = .ok none) ∧
      (∀ cts r, IsNewestLE s k ts cts r →
        (r.kind = .put →
          mvccGet s k ts = .ok (alGet s.cfDefault (encodeKey k r.startTs))) ∧
        ((r.kind = .del ∨ r.kind = .rollback) →
          mvccGet s k ts = .ok none))) := by
  have hread_none : ∀ h : ∀ p ∈ writesFor s k, ¬ p.1 ≤ ts,
      mvccGet.mvccRead s k ts = .ok none := by
    intro h
    rw [mvccGet.mvccRead, newestWriteLE_eq_none s k ts h]
  have hread_some : ∀ cts r, IsNewestLE s k ts cts r →
      (r.kind = .put →
        mvccGet.mvccRead s k ts = .ok (alGet s.cfDefault (encodeKey k r.startTs))) ∧
      ((r.kind = .del ∨ r.kind = .rollback) →
        mvccGet.mvccRead s k ts = .ok none) := by
    intro cts r hn
    rw [mvccGet.mvccRead, newestWriteLE_of_isNewest s k ts cts r hn]
    rcases r with ⟨rts, rkind⟩
    cases rkind
    · exact ⟨fun _ => rfl, fun hk => by rcases hk with hk | hk <;> exact nomatch hk⟩
    · exact ⟨(fun hk => nomatch hk), (fun _ => rfl)⟩
    · exact ⟨(fun hk => nomatch hk), (fun _ => rfl)⟩
  constructor
  · intro l hl hle
    rw [mvccGet, hl]
    simp [hle]
  · intro hfut
    have hgo : mvccGet s k ts = mvccGet.mvccRead s k ts := by
      rw [mvccGet]
      match hlock : alGet s.cfLock k with
      | none => rfl
      | some l =>
        have := hfut l hlock
        simp only
        rw [if_neg (by omega)]
    rw [hgo]
    exact ⟨hread_none, hread_some⟩

theorem applyMutation_cfLock (primary : List Nat) (startTs ttl : Nat)
    (s : State) (m : Mutation) :
    (applyMutation primary startTs ttl s m).cfLock =
      alPut s.cfLock m.key ⟨primary, startTs, ttl, kindOfMut m.kind⟩ := by
  cases m with
  | mk k kind => cases kind <;> rfl

theorem foldl_applyMutation_lock_ne (primary : List Nat) (startTs ttl : Nat)
    (muts : List Mutation) (s : State) (k : List Nat)
    (h : ∀ m ∈ muts, m.key ≠ k) :
    alGet (muts.foldl (applyMutation primary startTs ttl) s).cfLock k =
      alGet s.cfLock k := by
  induction muts generalizing s with
  | nil => rfl
  | cons m rest ih =>
    rw [List.foldl_cons]
    rw [ih (applyMutation primary startTs ttl s m)
      (fun m2 hm2 => h m2 (List.mem_cons_of_mem m hm2))]
    rw [applyMutation_cfLock]
    exact alGet_alPut_ne _ _ _ _ (Ne.symm (h m (List.mem_cons_self m rest)))

theorem foldl_applyMutation_lock_mem (primary : List Nat) (startTs ttl : Nat)
    (muts : List Mutation) (s : State) (m : Mutation) (hm : m ∈ muts)
    (hnd : (muts.map Mutation.key).Nodup) :
    alGet (muts.foldl (applyMutation primary startTs ttl) s).cfLock m.key =
      some ⟨primary, startTs, ttl, kindOfMut m.kind⟩ := by
  induction muts generalizing s with
  | nil => simp at hm
  | cons m0 rest ih =>
    rw [List.foldl_cons]
    rw [List.map_cons, List.nodup_cons] at hnd
    rcases List.mem_cons.mp hm with he | hmem
    · subst he
      rw [foldl_applyMutation_lock_ne primary startTs ttl rest _ m.key
        (fun m2 hm2 hk => hnd.1 (hk ▸ List.mem_map_of_mem Mutation.key hm2))]
      rw [applyMutation_cfLock]
      exact alGet_alPut_same _ _ _
    · exact ih _ hmem hnd.2

/-- C2: For every key in a Prewrite batch with transaction timestamp
`start_ts`: the key is aborted with WriteConflict if and only if some
WriteRecord for that key has `commit_ts ≥ start_ts`, it is aborted with
KeyIsLocked if and only if (absent such a conflict) a Lock already exists
for that key with any start_ts, and otherwise a Lock
`{primary, start_ts, ttl, kind}` is written for the key. -/
theorem C2_prewrite_key_checks (s : State) (startTs ttl : Nat)
    (primary : List Nat) (muts : List Mutation) (m : Mutation) :
    (keyCheck s startTs m.key = some .writeConflict ↔
      ∃ p ∈ writesFor s m.key, startTs ≤ p.1) ∧
    (keyCheck s startTs m.key = some .keyIsLocked ↔
      ¬ (∃ p ∈ writesFor s m.key, startTs ≤ p.1) ∧
        alGet s.cfLock m.key ≠ none) ∧
    (m ∈ muts → (muts.map Mutation.key).Nodup →
      keyCheck s startTs m.key = none →
      (prewrite s startTs ttl primary muts).1 = [] →
      alGet (prewrite s startTs ttl primary muts).2.cfLock m.key =
        some ⟨primary, startTs, ttl, kindOfMut m.kind⟩) := by
  have hconf : ((writesFor s m.key).any (fun p => decide (startTs ≤ p.1)) = true) ↔
      ∃ p ∈ writesFor s m.key, startTs ≤ p.1 := by
    rw [List.any_eq_true]
    simp
  refine ⟨?_, ?_, ?_⟩
  · rw [keyCheck]
    constructor
    · intro h
      split at h
      · rename_i hc
        exact hconf.mp hc
      · split at h <;> simp at h
    · intro h
      rw [if_pos (hconf.mpr h)]
  · rw [keyCheck]
    constructor
    · intro h
      split at h
      · simp at h
      · rename_i hc
        split at h <;> rename_i hl
        · exact ⟨fun hx => hc (hconf.mpr hx), by
            intro hn
            rw [hn] at hl
            simp at hl⟩
        · simp at h
    · intro ⟨h1, h2⟩
      rw [if_neg (fun hc => h1 (hconf.mp hc))]
      rw [if_pos (by
        match hx : alGet s.cfLock m.key with
        | none => exact absurd hx h2
        | some l => simp [hx])]
  · intro hmem hnd hnone hempty
    by_cases hemp : (muts.filterMap fun m2 =>
        (keyCheck s startTs m2.key).map (fun e => (m2.key, e))).isEmpty = true
    · have h2 : (prewrite s startTs ttl primary muts).2 =
          muts.foldl (applyMutation primary startTs ttl) s := by
        rw [prewrite]
        rw [if_pos hemp]
      rw [h2]
      exact foldl_applyMutation_lock_mem primary startTs ttl muts s m hmem hnd
    · exfalso
      apply hemp
      have h1 : (prewrite s startTs ttl primary muts).1 =
          muts.filterMap fun m2 =>
            (keyCheck s startTs m2.key).map (fun e => (m2.key, e)) := by
        rw [prewrite]
        rw [if_neg hemp]
      rw [h1] at hempty
      rw [hempty]
      rfl

/-- C3: For every Prewrite batch: if any key of the batch fails its conflict
or lock check, the whole Prewrite reports failure with a per-key error list
and no Lock is written for any key of the batch (the Lock, Write and Default
families are left unchanged by the failed Prewrite). -/
theorem C3_prewrite_batch_atomic (s : State) (startTs ttl : Nat)
    (primary : List Nat) (muts : List Mutation)
    (h : ∃ m ∈ muts, keyCheck s startTs m.key ≠ none) :
    (prewrite s startTs ttl primary muts).1 ≠ [] ∧
    (prewrite s startTs ttl primary muts).1 =
      muts.filterMap
        (fun m => (keyCheck s startTs m.key).map (fun e => (m.key, e))) ∧
    (prewrite s startTs ttl primary muts).2 = s := by
  obtain ⟨m, hm, hck⟩ := h
  have hne : (muts.filterMap
      (fun m2 => (keyCheck s startTs m2.key).map (fun e => (m2.key, e)))) ≠ [] := by
    intro hnil
    rw [List.filterMap_eq_nil] at hnil
    have := hnil m hm
    match hx : keyCheck s startTs m.key with
    | none => exact hck hx
    | some e =>
      rw [hx] at this
      simp at this
  have hemp : ¬ ((muts.filterMap
      (fun m2 => (keyCheck s startTs m2.key).map (fun e => (m2.key, e)))).isEmpty = true) := by
    intro hx
    exact hne (List.isEmpty_iff.mp hx)
  refine ⟨?_, ?_, ?_⟩
  · rw [prewrite, if_neg hemp]
    exact hne
  · rw [prewrite, if_neg hemp]
  · rw [prewrite, if_neg hemp]

theorem writesFor_alPut_cons (s : State) (k : List Nat) (ts : Nat)
    (r : WriteRecord) (hts : ts < 2 ^ 64) :
    writesFor { s with cfWrite := alPut s.cfWrite (encodeKey k ts) r } k =
      (ts, r) ::
        writesFor { s with cfWrite := alDel s.cfWrite (encodeKey k ts) } k := by
  simp [writesFor, alPut, List.filterMap_cons, decodeKey_encodeKey k ts hts]

theorem writesFor_alDel_subset (s : State) (ek k : List Nat) :
    ∀ p ∈ writesFor { s with cfWrite := alDel s.cfWrite ek } k,
      p ∈ writesFor s k := by
  intro p hp
  simp only [writesFor] at hp ⊢
  exact ((List.filter_sublist _).filterMap _).subset hp

theorem findWriteByStart_committed (s : State) (k : List Nat)
    (startTs commitTs : Nat) (kind : WriteKind) (hts : commitTs < 2 ^ 64)
    (hfresh : ∀ p ∈ writesFor s k, p.2.startTs ≠ startTs) :
    findWriteByStart
      { s with cfWrite := alPut s.cfWrite (encodeKey k commitTs) ⟨startTs, kind⟩ }
      k startTs = some (commitTs, ⟨startTs, kind⟩) := by
  rw [findWriteByStart, writesFor_alPut_cons s k commitTs ⟨startTs, kind⟩ hts]
  rw [List.filter_cons]
  rw [if_pos (by simp)]
  have hnil : (writesFor
      { s with cfWrite := alDel s.cfWrite (encodeKey k commitTs) } k).filter
        (fun p => decide (p.2.startTs = startTs)) = [] := by
    rw [List.filter_eq_nil]
    intro p hp
    have := hfresh p (writesFor_alDel_subset s _ k p hp)
    simp [this]
  rw [hnil]
  rfl

/-- Deleting the lock and writing the commit record makes an immediate
re-commit of the same `(start_ts, commit_ts, key)` an idempotent success. -/
theorem commitKey_again (s : State) (startTs commitTs : Nat) (k : List Nat)
    (kind : WriteKind) (hts : commitTs < 2 ^ 64) (hkind : kind ≠ .rollback)
    (hfresh : ∀ p ∈ writesFor s k, p.2.startTs ≠ startTs) :
    commitKey
      { s with
        cfWrite := alPut s.cfWrite (encodeKey k commitTs) ⟨startTs, kind⟩,
        cfLock := alDel s.cfLock k } startTs commitTs k =
    .ok { s with
        cfWrite := alPut s.cfWrite (encodeKey k commitTs) ⟨startTs, kind⟩,
        cfLock := alDel s.cfLock k } := by
  have hlock2 : alGet (alDel s.cfLock k) k = none := alGet_alDel_same _ _
  have hfind := findWriteByStart_committed s k startTs commitTs kind hts hfresh
  rw [commitKey]
  rw [show alGet ({ s with
      cfWrite := alPut s.cfWrite (encodeKey k commitTs) ⟨startTs, kind⟩,
      cfLock := alDel s.cfLock k } : State).cfLock k = none from hlock2]
  rw [show findWriteByStart { s with
      cfWrite := alPut s.cfWrite (encodeKey k commitTs) ⟨startTs, kind⟩,
      cfLock := alDel s.cfLock k } k startTs
    = some (commitTs, ⟨startTs, kind⟩) from hfind]
  simp [hkind]

/-- C4 (amended): For every `Commit(start_ts, commit_ts, key)` where no Lock
exists for the key: if the Write history already records a commit for this
`start_ts` at this `commit_ts`, Commit succeeds idempotently with the state
unchanged; if it records a Rollback for this `start_ts`, Commit fails with
TxnRolledBack; otherwise (no trace for `start_ts`, or a commit recorded at a
different `commit_ts`) Commit fails with TxnNotFound; if a Lock exists whose
`start_ts` differs, Commit fails; and committing the same
`(start_ts, commit_ts, key)` twice succeeds both times with identical
resulting state (for a genuine 64-bit `commit_ts`, a non-Rollback lock and a
key on which transaction `start_ts` left no earlier trace while locked). -/
theorem C4_commit_semantics (s : State) (startTs commitTs : Nat)
    (k : List Nat) :
    (alGet s.cfLock k = none →
      (∀ cts r, findWriteByStart s k startTs = some (cts, r) →
        (r.kind ≠ .rollback → cts = commitTs →
          commitKey s startTs commitTs k = .ok s) ∧
        (r.kind = .rollback →
          commitKey s startTs commitTs k = .error .txnRolledBack) ∧
        (r.kind ≠ .rollback → cts ≠ commitTs →
          commitKey s startTs commitTs k = .error .txnNotFound)) ∧
      (findWriteByStart s k startTs = none →
        commitKey s startTs commitTs k = .error .txnNotFound)) ∧
    (∀ l, alGet s.cfLock k = some l → l.ts ≠ startTs →
      commitKey s startTs commitTs k = .error .lockMismatch) ∧
    (commitTs < 2 ^ 64 →
      (∀ l, alGet s.cfLock k = some l → l.kind ≠ .rollback) →
      (∀ l, alGet s.cfLock k = some l →
        ∀ p ∈ writesFor s k, p.2.startTs ≠ startTs) →
      ∀ s2, commitKey s startTs commitTs k = .ok s2 →
        commitKey s2 startTs commitTs k = .ok s2) := by
  refine ⟨?_, ?_, ?_⟩
  · intro hlock
    constructor
    · intro cts r hfind
      refine ⟨?_, ?_, ?_⟩
      · intro hkind hcts
        rw [commitKey, hlock, hfind]
        simp [hkind, hcts]
      · intro hkind
        rw [commitKey, hlock, hfind]
        simp [hkind]
      · intro hkind hcts
        rw [commitKey, hlock, hfind]
        simp [hkind, hcts]
    · intro hfind
      rw [commitKey, hlock, hfind]
  · intro l hlock hne
    rw [commitKey, hlock]
    simp [hne]
  · intro hts hlk hfresh s2 hok
    match hlock : alGet s.cfLock k with
    | none =>
      simp only [commitKey, hlock] at hok
      match hfind : findWriteByStart s k startTs with
      | none =>
        rw [hfind] at hok
        exact absurd hok (by simp)
      | some (cts, r) =>
        rw [hfind] at hok
        simp only at hok
        split at hok
        · exact absurd hok (by simp)
        · split at hok <;> rename_i hcts
          · have hs2 : s = s2 := by simpa using hok
            rw [← hs2]
            simp only [commitKey, hlock, hfind]
            simp_all
          · exact absurd hok (by simp)
    | some l =>
      simp only [commitKey, hlock] at hok
      split at hok <;> rename_i hlts
      · have hs2 : ({ s with
            cfWrite := alPut s.cfWrite (encodeKey k commitTs) ⟨startTs, l.kind⟩,
            cfLock := alDel s.cfLock k } : State) = s2 := by simpa using hok
        rw [← hs2, ← hlts]
        rw [← hlts] at hfresh
        exact commitKey_again s l.ts commitTs k l.kind hts
          (hlk l hlock) (hfresh l hlock)
      · exact absurd hok (by simp)

/-- C4 counterexample: with no Lock and a commit record for `start_ts = 10`
stored at commit timestamp 15, `Commit(10, 16, k)` fails with TxnNotFound
even though the Write history already records a commit for this `start_ts`,
refuting the claim's unqualified idempotent-success case. -/
theorem C4_counterexample :
    alGet (⟨[], [], [(encodeKey [97] 15, ⟨10, .put⟩)]⟩ : State).cfLock [97] =
        none ∧
    findWriteByStart (⟨[], [], [(encodeKey [97] 15, ⟨10, .put⟩)]⟩ : State)
        [97] 10 = some (15, ⟨10, .put⟩) ∧
    commitKey (⟨[], [], [(encodeKey [97] 15, ⟨10, .put⟩)]⟩ : State) 10 16 [97] =
      .error .txnNotFound := by
  refine ⟨rfl, ?_, ?_⟩ <;> rfl

theorem C4_witness :
    commitKey (⟨[], [], [(encodeKey [98] 21, ⟨20, .put⟩)]⟩ : State) 20 21 [98] =
      .ok (⟨[], [], [(encodeKey [98] 21, ⟨20, .put⟩)]⟩ : State) :=
  (C4_commit_semantics (⟨[], [([98], ⟨[98], 20, 5, .put⟩)], []⟩ : State)
      20 21 [98]).2.2
    (by norm_num)
    (fun l hl => by
      have h2 : (⟨[98], 20, 5, WriteKind.put⟩ : LockRec) = l := Option.some.inj hl
      rw [← h2]
      decide)
    (fun l hl => by
      intro pr hp
      simp [writesFor] at hp)
    (⟨[], [], [(encodeKey [98] 21, ⟨20, .put⟩)]⟩ : State)
    rfl

theorem writesFor_congr (s1 s2 : State) (h : s1.cfWrite = s2.cfWrite)
    (k : List Nat) : writesFor s1 k = writesFor s2 k := by
  rw [writesFor, writesFor, h]

theorem findWriteByStart_mem (s : State) (k : List Nat) (startTs cts : Nat)
    (r : WriteRecord) (h : findWriteByStart s k startTs = some (cts, r)) :
    (cts, r) ∈ writesFor s k ∧ r.startTs = startTs := by
  have hmem := maxByTs_mem _ _ h
  obtain ⟨h1, h2⟩ := List.mem_filter.mp hmem
  exact ⟨h1, by simpa using h2⟩

theorem keyCheck_conflict_of_record (s : State) (startTs : Nat)
    (k : List Nat) (h : ∃ p ∈ writesFor s k, startTs ≤ p.1) :
    keyCheck s startTs k = some .writeConflict := by
  rw [keyCheck, if_pos]
  rw [List.any_eq_true]
  obtain ⟨p, hp, hle⟩ := h
  exact ⟨p, hp, by simp [hle]⟩

theorem prewrite_reports_error (s : State) (startTs ttl : Nat)
    (primary k : List Nat) (muts : List Mutation)
    (hm : ∃ m ∈ muts, m.key = k) (hc : keyCheck s startTs k ≠ none) :
    (prewrite s startTs ttl primary muts).1 ≠ [] := by
  obtain ⟨m, hmem, hkey⟩ := hm
  have hne : (muts.filterMap
      (fun m2 => (keyCheck s startTs m2.key).map (fun e => (m2.key, e)))) ≠ [] := by
    intro hnil
    rw [List.filterMap_eq_nil] at hnil
    have := hnil m hmem
    rw [hkey] at this
    match hx : keyCheck s startTs k with
    | none => exact hc hx
    | some e =>
      rw [hx] at this
      simp at this
  have hemp : ¬ ((muts.filterMap
      (fun m2 => (keyCheck s startTs m2.key).map (fun e => (m2.key, e)))).isEmpty
        = true) := by
    intro hx
    exact hne (List.isEmpty_iff.mp hx)
  rw [prewrite, if_neg hemp]
  exact hne

/-- C5 (amended): If `Cleanup(start_ts, k)` succeeds — in a state whose write
records respect `start_ts ≤ commit_ts` — then `k` holds no Lock owned by
`start_ts` (a Lock owned by a different transaction may remain), a Rollback
record for `start_ts` exists, and any subsequent Prewrite batch containing
`k` at the same `start_ts` fails. -/
theorem C5_cleanup_semantics (s : State) (startTs : Nat) (k : List Nat)
    (hts : startTs < 2 ^ 64)
    (hinv : ∀ p ∈ writesFor s k, p.2.startTs ≤ p.1) :
    ∀ s2, cleanup s startTs k = .ok s2 →
      (∀ l2, alGet s2.cfLock k = some l2 → l2.ts ≠ startTs) ∧
      (∃ cts r, (cts, r) ∈ writesFor s2 k ∧ r.startTs = startTs ∧
        r.kind = .rollback ∧ startTs ≤ cts) ∧
      (∀ ttl primary muts, (∃ m ∈ muts, m.key = k) →
        (prewrite s2 startTs ttl primary muts).1 ≠ []) := by
  intro s2 hok
  have hrollback :
      ∀ t : State, t.cfWrite = alPut s.cfWrite (encodeKey k startTs)
          ⟨startTs, .rollback⟩ →
        ∃ cts r, (cts, r) ∈ writesFor t k ∧ r.startTs = startTs ∧
          r.kind = .rollback ∧ startTs ≤ cts := by
    intro t ht
    refine ⟨startTs, ⟨startTs, .rollback⟩, ?_, rfl, rfl, le_refl _⟩
    rw [writesFor_congr t { s with cfWrite := alPut s.cfWrite (encodeKey k startTs) ⟨startTs, .rollback⟩ } ht k]
    rw [writesFor_alPut_cons s k startTs _ hts]
    exact List.mem_cons_self _ _
  have hNoLockCase : ∀ hcl : cleanup.cleanupNoLock s startTs k = .ok s2,
      (∀ l2, alGet s.cfLock k = some l2 → l2.ts ≠ startTs) →
      (∀ l2, alGet s2.cfLock k = some l2 → l2.ts ≠ startTs) ∧
      (∃ cts r, (cts, r) ∈ writesFor s2 k ∧ r.startTs = startTs ∧
        r.kind = .rollback ∧ startTs ≤ cts) := by
    intro hcl hfor
    rw [cleanup.cleanupNoLock] at hcl
    match hfind : findWriteByStart s k startTs with
    | some (cts, r) =>
      rw [hfind] at hcl
      simp only at hcl
      split at hcl <;> rename_i hkind
      · have hs2 : s = s2 := by simpa using hcl
        obtain ⟨hmem, hst⟩ := findWriteByStart_mem s k startTs cts r hfind
        refine ⟨by rw [← hs2]; exact hfor, cts, r, ?_, hst, hkind, ?_⟩
        · rw [← hs2]
          exact hmem
        · have := hinv (cts, r) hmem
          simp only at this
          omega
      · exact absurd hcl (by simp)
    | none =>
      rw [hfind] at hcl
      have hs2 : ({ s with cfWrite := alPut s.cfWrite (encodeKey k startTs) ⟨startTs, .rollback⟩ } : State) = s2 := by simpa using hcl
      refine ⟨?_, hrollback s2 (by rw [← hs2])⟩
      intro l2 hl2
      rw [← hs2] at hl2
      exact hfor l2 hl2
  have main :
      (∀ l2, alGet s2.cfLock k = some l2 → l2.ts ≠ startTs) ∧
      (∃ cts r, (cts, r) ∈ writesFor s2 k ∧ r.startTs = startTs ∧
        r.kind = .rollback ∧ startTs ≤ cts) := by
    match hlock : alGet s.cfLock k with
    | some l =>
      by_cases hlts : l.ts = startTs
      · simp only [cleanup, hlock, if_pos hlts] at hok
        have hs2 : ({ s with cfLock := alDel s.cfLock k, cfWrite := alPut s.cfWrite (encodeKey k startTs) ⟨startTs, .rollback⟩ } : State) = s2 := by simpa using hok
        constructor
        · intro l2 hl2
          rw [← hs2] at hl2
          rw [show ({ s with cfLock := alDel s.cfLock k, cfWrite := alPut s.cfWrite (encodeKey k startTs) ⟨startTs, .rollback⟩ } : State).cfLock = alDel s.cfLock k from rfl] at hl2
          rw [alGet_alDel_same] at hl2
          exact nomatch hl2
        · exact hrollback s2 (by rw [← hs2])
      · simp only [cleanup, hlock, if_neg hlts] at hok
        exact hNoLockCase hok
          (fun l2 hl2 => by
            rw [hlock] at hl2
            rw [← Option.some.inj hl2]
            exact hlts)
    | none =>
      simp only [cleanup, hlock] at hok
      exact hNoLockCase hok
        (fun l2 hl2 => by
          rw [hlock] at hl2
          exact nomatch hl2)
  refine ⟨main.1, main.2, ?_⟩
  intro ttl primary muts hm
  obtain ⟨cts, r, hmem, hst, hkind, hle⟩ := main.2
  apply prewrite_reports_error s2 startTs ttl primary k muts hm
  rw [keyCheck_conflict_of_record s2 startTs k ⟨(cts, r), hmem, hle⟩]
  simp

/-- C5 counterexample: `k = [98]` holds a Lock owned by transaction 30;
`Cleanup(20, k)` succeeds (writing a defensive Rollback record), yet
afterwards `k` still holds that Lock, refuting the claim's unqualified
"k holds no Lock". -/
theorem C5_counterexample :
    (match cleanup (⟨[], [([98], ⟨[98], 30, 5, .put⟩)], []⟩ : State) 20 [98] with
      | .ok t => alGet t.cfLock [98]
      | .error _ => none) = some ⟨[98], 30, 5, .put⟩ := by
  rfl

theorem C5_witness :
    (prewrite (⟨[], [], [(encodeKey [99] 20, ⟨20, .rollback⟩)]⟩ : State)
      20 3 [99] [⟨[99], .put [1]⟩]).1 ≠ [] := by
  have h := C5_cleanup_semantics
    (⟨[], [([99], ⟨[99], 20, 5, .put⟩)], []⟩ : State) 20 [99]
    (by norm_num)
    (fun pr hp => by simp [writesFor] at hp)
    (⟨[], [], [(encodeKey [99] 20, ⟨20, .rollback⟩)]⟩ : State)
    rfl
  exact h.2.2 3 [99] [⟨[99], .put [1]⟩] ⟨⟨[99], .put [1]⟩, by simp, rfl⟩

/-- C6: For every `CheckTxnStatus(primary, lock_ts, current_ts)` (with no
write trace for `lock_ts` on the primary — the spec checks the Write history
first — and a genuine 64-bit `lock_ts`): if the primary still holds a Lock
with `start_ts = lock_ts` and `current_ts − lock_ts` exceeds the Lock's ttl,
the lock is rolled back (deleted, with a Rollback record written) and
RolledBack is reported; if the ttl is not exceeded, Locked with the remaining
ttl is reported and the state is unchanged; and if the primary holds no Lock
with `start_ts = lock_ts`, RolledBack is reported and a defensive Rollback
record is left so a future Prewrite at `lock_ts` is rejected. -/
theorem C6_check_txn_status (s : State) (primary : List Nat)
    (lockTs currentTs : Nat) (hts : lockTs < 2 ^ 64)
    (hw : findWriteByStart s primary lockTs = none) :
    (∀ l, alGet s.cfLock primary = some l → l.ts = lockTs →
      (l.ttl < currentTs - lockTs →
        (checkTxnStatus s primary lockTs currentTs).1 = .rolledBack ∧
        alGet (checkTxnStatus s primary lockTs currentTs).2.cfLock primary =
          none ∧
        (∃ cts r,
          (cts, r) ∈ writesFor (checkTxnStatus s primary lockTs currentTs).2
            primary ∧ r.startTs = lockTs ∧ r.kind = .rollback)) ∧
      (¬ l.ttl < currentTs - lockTs →
        checkTxnStatus s primary lockTs currentTs =
          (.locked (l.ttl - (currentTs - lockTs)), s))) ∧
    ((∀ l, alGet s.cfLock primary = some l → l.ts ≠ lockTs) →
      (checkTxnStatus s primary lockTs currentTs).1 = .rolledBack ∧
      (∃ cts r,
        (cts, r) ∈ writesFor (checkTxnStatus s primary lockTs currentTs).2
          primary ∧ r.startTs = lockTs ∧ r.kind = .rollback ∧ lockTs ≤ cts) ∧
      (∀ ttl2 primary2 muts, (∃ m ∈ muts, m.key = primary) →
        (prewrite (checkTxnStatus s primary lockTs currentTs).2 lockTs ttl2
          primary2 muts).1 ≠ [])) := by
  have hrollback :
      ∀ t : State, t.cfWrite = alPut s.cfWrite (encodeKey primary lockTs) ⟨lockTs, .rollback⟩ →
        (lockTs, (⟨lockTs, .rollback⟩ : WriteRecord)) ∈ writesFor t primary := by
    intro t ht
    rw [writesFor_congr t { s with cfWrite := alPut s.cfWrite (encodeKey primary lockTs) ⟨lockTs, .rollback⟩ } ht primary]
    rw [writesFor_alPut_cons s primary lockTs _ hts]
    exact List.mem_cons_self _ _
  constructor
  · intro l hlock hlts
    constructor
    · intro hexp
      have heq : checkTxnStatus s primary lockTs currentTs =
          (.rolledBack, { s with cfLock := alDel s.cfLock primary, cfWrite := alPut s.cfWrite (encodeKey primary lockTs) ⟨lockTs, .rollback⟩ }) := by
        simp [checkTxnStatus, hw, hlock, hlts, hexp]
      rw [heq]
      exact ⟨rfl, alGet_alDel_same _ _, lockTs, ⟨lockTs, .rollback⟩,
        hrollback _ rfl, rfl, rfl⟩
    · intro hexp
      simp [checkTxnStatus, hw, hlock, hlts, hexp]
  · intro hfor
    have hdef : checkTxnStatus s primary lockTs currentTs =
        (.rolledBack, { s with cfWrite := alPut s.cfWrite (encodeKey primary lockTs) ⟨lockTs, .rollback⟩ }) := by
      match hlock : alGet s.cfLock primary with
      | some l =>
        have hne := hfor l hlock
        simp [checkTxnStatus, hw, hlock, hne, checkTxnStatus.ctsDefensive]
      | none =>
        simp [checkTxnStatus, hw, hlock, checkTxnStatus.ctsDefensive]
    rw [hdef]
    refine ⟨rfl, ⟨lockTs, ⟨lockTs, .rollback⟩, hrollback _ rfl, rfl, rfl,
      le_refl _⟩, ?_⟩
    intro ttl2 primary2 muts hm
    apply prewrite_reports_error _ lockTs ttl2 primary2 primary muts hm
    rw [keyCheck_conflict_of_record _ lockTs primary
      ⟨(lockTs, ⟨lockTs, .rollback⟩), hrollback _ rfl, le_refl _⟩]
    simp

theorem C6_witness :
    (checkTxnStatus (⟨[], [([97], ⟨[97], 10, 3, .put⟩)], []⟩ : State)
      [97] 10 20).1 = .rolledBack := by
  have h := (C6_check_txn_status
    (⟨[], [([97], ⟨[97], 10, 3, .put⟩)], []⟩ : State) [97] 10 20
    (by norm_num) rfl).1 ⟨[97], 10, 3, .put⟩ rfl rfl
  exact (h.1 (by norm_num)).1

/-- C7: For every byte key `k` and every 64-bit timestamp `t`,
`decode(encode(k, t)) = (k, t)`; `encode` is total (a Lean function) and
injective and `decode` is its exact inverse. -/
theorem C7_codec_roundtrip :
    (∀ k ts, ts < 2 ^ 64 → decodeKey (encodeKey k ts) = some (k, ts)) ∧
    (∀ k1 t1 k2 t2, t1 < 2 ^ 64 → t2 < 2 ^ 64 →
      encodeKey k1 t1 = encodeKey k2 t2 → k1 = k2 ∧ t1 = t2) :=
  ⟨decodeKey_encodeKey, encodeKey_inj⟩

theorem C7_witness : decodeKey (encodeKey [1, 2] 5) = some ([1, 2], 5) :=
  C7_codec_roundtrip.1 [1, 2] 5 (by norm_num)

/-- C8: For every byte key `k` and all timestamps `t1 < t2` (with `t2` a
genuine 64-bit value), `encode(k, t2)` is byte-lexicographically strictly
less than `encode(k, t1)`: for a fixed user key the encoded keys are ordered
by descending timestamp. -/
theorem C8_codec_ordering (k : List Nat) (t1 t2 : Nat) (h12 : t1 < t2)
    (h2 : t2 < 2 ^ 64) : bytesLt (encodeKey k t2) (encodeKey k t1) = true :=
  bytesLt_encodeKey k t1 t2 h12 h2

theorem C8_witness : bytesLt (encodeKey [0] 2) (encodeKey [0] 1) = true :=
  C8_codec_ordering [0] 1 2 (by norm_num) (by norm_num)

theorem encodedKeysOnly_alPut {α : Type} (l : List (List Nat × α))
    (k : List Nat) (ts : Nat) (v : α) (h : encodedKeysOnly l) :
    encodedKeysOnly (alPut l (encodeKey k ts) v) := by
  intro p hp
  rcases mem_alPut l _ v p hp with he | hm
  · exact ⟨k, ts, by rw [he]⟩
  · exact h p hm

theorem encodedKeysOnly_alDel {α : Type} (l : List (List Nat × α))
    (k : List Nat) (h : encodedKeysOnly l) :
    encodedKeysOnly (alDel l k) :=
  fun p hp => h p (mem_alDel l k p hp)

theorem foldl_applyMutation_cfWrite (primary : List Nat) (startTs ttl : Nat)
    (muts : List Mutation) (s : State) :
    (muts.foldl (applyMutation primary startTs ttl) s).cfWrite = s.cfWrite := by
  induction muts generalizing s with
  | nil => rfl
  | cons m rest ih =>
    rw [List.foldl_cons, ih]
    cases m with
    | mk k kind => cases kind <;> rfl

theorem foldl_applyMutation_cfDefault (primary : List Nat) (startTs ttl : Nat)
    (muts : List Mutation) (s : State) (h : encodedKeysOnly s.cfDefault) :
    encodedKeysOnly (muts.foldl (applyMutation primary startTs ttl) s).cfDefault := by
  induction muts generalizing s with
  | nil => exact h
  | cons m rest ih =>
    rw [List.foldl_cons]
    apply ih
    cases m with
    | mk k kind =>
      cases kind with
      | put v => exact encodedKeysOnly_alPut s.cfDefault k startTs v h
      | del => exact h

theorem foldl_applyMutation_cfLock_mem (primary : List Nat) (startTs ttl : Nat)
    (muts : List Mutation) (s : State) :
    ∀ p ∈ (muts.foldl (applyMutation primary startTs ttl) s).cfLock,
      p ∈ s.cfLock ∨ ∃ m ∈ muts, p.1 = m.key := by
  induction muts generalizing s with
  | nil => exact fun p hp => Or.inl hp
  | cons m rest ih =>
    intro p hp
    rw [List.foldl_cons] at hp
    rcases ih (applyMutation primary startTs ttl s m) p hp with hin | ⟨m2, hm2, hk⟩
    · rw [applyMutation_cfLock] at hin
      rcases mem_alPut _ _ _ p hin with he | hm
      · exact Or.inr ⟨m, List.mem_cons_self m rest, by rw [he]⟩
      · cases m with
        | mk mk2 kind =>
          cases kind with
          | put v => exact Or.inl hm
          | del => exact Or.inl hm
    · exact Or.inr ⟨m2, List.mem_cons_of_mem m hm2, hk⟩

/-- C9: Every entry of the Lock column family is keyed by the raw,
unversioned user key, while every entry of the Default and Write column
families is keyed by an encoded (user key, timestamp) pair — an invariant
preserved by every operation that writes to these families (Prewrite writes
locks only at its mutations' raw keys; Commit, Cleanup and CheckTxnStatus
never add a lock entry, and their Default/Write writes are at encoded
keys). -/
theorem C9_cf_key_discipline (s : State) :
    (∀ startTs ttl primary muts,
      encodedKeysOnly s.cfDefault → encodedKeysOnly s.cfWrite →
      (encodedKeysOnly (prewrite s startTs ttl primary muts).2.cfDefault ∧
       encodedKeysOnly (prewrite s startTs ttl primary muts).2.cfWrite ∧
       ∀ p ∈ (prewrite s startTs ttl primary muts).2.cfLock,
         p ∈ s.cfLock ∨ ∃ m ∈ muts, p.1 = m.key)) ∧
    (∀ startTs commitTs k s2, commitKey s startTs commitTs k = .ok s2 →
      encodedKeysOnly s.cfDefault → encodedKeysOnly s.cfWrite →
      (encodedKeysOnly s2.cfDefault ∧ encodedKeysOnly s2.cfWrite ∧
       ∀ p ∈ s2.cfLock, p ∈ s.cfLock)) ∧
    (∀ startTs k s2, cleanup s startTs k = .ok s2 →
      encodedKeysOnly s.cfDefault → encodedKeysOnly s.cfWrite →
      (encodedKeysOnly s2.cfDefault ∧ encodedKeysOnly s2.cfWrite ∧
       ∀ p ∈ s2.cfLock, p ∈ s.cfLock)) ∧
    (∀ pk lockTs currentTs,
      encodedKeysOnly s.cfDefault → encodedKeysOnly s.cfWrite →
      (encodedKeysOnly (checkTxnStatus s pk lockTs currentTs).2.cfDefault ∧
       encodedKeysOnly (checkTxnStatus s pk lockTs currentTs).2.cfWrite ∧
       ∀ p ∈ (checkTxnStatus s pk lockTs currentTs).2.cfLock,
         p ∈ s.cfLock)) := by
  refine ⟨?_, ?_, ?_, ?_⟩
  · intro startTs ttl primary muts hd hw
    rw [prewrite]
    split
    · simp only
      exact ⟨foldl_applyMutation_cfDefault primary startTs ttl muts s hd,
        by rw [foldl_applyMutation_cfWrite]; exact hw,
        foldl_applyMutation_cfLock_mem primary startTs ttl muts s⟩
    · exact ⟨hd, hw, fun p hp => Or.inl hp⟩
  · intro startTs commitTs k s2 hok hd hw
    match hlock : alGet s.cfLock k with
    | some l =>
      simp only [commitKey, hlock] at hok
      split at hok
      · have hs2 : ({ s with cfWrite := alPut s.cfWrite (encodeKey k commitTs) ⟨startTs, l.kind⟩, cfLock := alDel s.cfLock k } : State) = s2 := by simpa using hok
        rw [← hs2]
        exact ⟨hd, encodedKeysOnly_alPut _ k commitTs _ hw,
          fun p hp => mem_alDel _ _ p hp⟩
      · exact absurd hok (by simp)
    | none =>
      simp only [commitKey, hlock] at hok
      match hfind : findWriteByStart s k startTs with
      | none =>
        rw [hfind] at hok
        exact absurd hok (by simp)
      | some (cts, r) =>
        rw [hfind] at hok
        simp only at hok
        split at hok
        · exact absurd hok (by simp)
        · split at hok
          · have hs2 : s = s2 := by simpa using hok
            rw [← hs2]
            exact ⟨hd, hw, fun p hp => hp⟩
          · exact absurd hok (by simp)
  · intro startTs k s2 hok hd hw
    have hNoLock : cleanup.cleanupNoLock s startTs k = .ok s2 →
        encodedKeysOnly s2.cfDefault ∧ encodedKeysOnly s2.cfWrite ∧
        ∀ p ∈ s2.cfLock, p ∈ s.cfLock := by
      intro hcl
      rw [cleanup.cleanupNoLock] at hcl
      match hfind : findWriteByStart s k startTs with
      | some (cts, r) =>
        rw [hfind] at hcl
        simp only at hcl
        split at hcl
        · have hs2 : s = s2 := by simpa using hcl
          rw [← hs2]
          exact ⟨hd, hw, fun p hp => hp⟩
        · exact absurd hcl (by simp)
      | none =>
        rw [hfind] at hcl
        have hs2 : ({ s with cfWrite := alPut s.cfWrite (encodeKey k startTs) ⟨startTs, .rollback⟩ } : State) = s2 := by simpa using hcl
        rw [← hs2]
        exact ⟨hd, encodedKeysOnly_alPut _ k startTs _ hw, fun p hp => hp⟩
    match hlock : alGet s.cfLock k with
    | some l =>
      by_cases hlts : l.ts = startTs
      · simp only [cleanup, hlock, if_pos hlts] at hok
        have hs2 : ({ s with cfLock := alDel s.cfLock k, cfWrite := alPut s.cfWrite (encodeKey k startTs) ⟨startTs, .rollback⟩ } : State) = s2 := by simpa using hok
        rw [← hs2]
        exact ⟨hd, encodedKeysOnly_alPut _ k startTs _ hw,
          fun p hp => mem_alDel _ _ p hp⟩
      · simp only [cleanup, hlock, if_neg hlts] at hok
        exact hNoLock hok
    | none =>
      simp only [cleanup, hlock] at hok
      exact hNoLock hok
  · intro pk lockTs currentTs hd hw
    have hDef :
        encodedKeysOnly ({ s with cfWrite := alPut s.cfWrite (encodeKey pk lockTs) ⟨lockTs, .rollback⟩ } : State).cfWrite :=
      encodedKeysOnly_alPut _ pk lockTs _ hw
    rw [checkTxnStatus]
    match hfind : findWriteByStart s pk lockTs with
    | some (cts, r) =>
      simp only
      split
      · exact ⟨hd, hw, fun p hp => hp⟩
      · exact ⟨hd, hw, fun p hp => hp⟩
    | none =>
      simp only
      match hlock : alGet s.cfLock pk with
      | some l =>
        simp only
        split
        · split
          · exact ⟨hd, encodedKeysOnly_alPut _ pk lockTs _ hw,
              fun p hp => mem_alDel _ _ p hp⟩
          · exact ⟨hd, hw, fun p hp => hp⟩
        · exact ⟨hd, hDef, fun p hp => hp⟩
      | none =>
        exact ⟨hd, hDef, fun p hp => hp⟩

theorem C9_witness :
    encodedKeysOnly
      ((⟨[], [], [(encodeKey [98] 21, ⟨20, .put⟩)]⟩ : State).cfWrite) :=
  ((C9_cf_key_discipline (⟨[], [([98], ⟨[98], 20, 5, .put⟩)], []⟩ : State)).2.1
    20 21 [98] (⟨[], [], [(encodeKey [98] 21, ⟨20, .put⟩)]⟩ : State) rfl
    (fun p hp => absurd hp (by simp))
    (fun p hp => absurd hp (by simp))).2.1

/-! ### Wire-format lemmas -/

theorem lor_shiftLeft_eq_add (a x sh : Nat) (h : a < 2 ^ sh) :
    a ||| x <<< sh = x * 2 ^ sh + a := by
  rw [Nat.shiftLeft_eq, Nat.or_comm, Nat.mul_comm, ← Nat.mul_add_lt_is_or h]

theorem and_127_eq_mod (b : Nat) : b &&& 0x7f = b % 128 := by
  have := Nat.and_pow_two_sub_one_eq_mod b 7
  norm_num at this
  exact this

theorem readVarintLoop_encode (v : Nat) :
    ∀ (shift acc : Nat) (rest : List Nat),
      shift < 64 → v < 2 ^ (64 - shift) → acc < 2 ^ shift →
      readVarintLoop shift acc (encodeVarintTikvpb v ++ rest) =
        .ok (acc + v * 2 ^ shift, rest) := by
  induction v using Nat.strong_induction_on with
  | _ v ih =>
    intro shift acc rest hsh hv hacc
    have hpow : 2 ^ (64 - shift) * 2 ^ shift = 2 ^ 64 := by
      rw [← pow_add]
      congr 1
      omega
    by_cases h128 : v < 128
    · rw [encodeVarintTikvpb, if_pos h128]
      rw [List.cons_append, List.nil_append, readVarintLoop]
      rw [if_neg (by omega)]
      simp only
      rw [and_127_eq_mod, Nat.mod_eq_of_lt h128]
      rw [lor_shiftLeft_eq_add acc v shift hacc]
      have hbound : v * 2 ^ shift + acc < 2 ^ 64 := by
        have h1 : (v + 1) * 2 ^ shift ≤ 2 ^ (64 - shift) * 2 ^ shift :=
          Nat.mul_le_mul_right _ (by omega)
        rw [hpow] at h1
        have h2 : (v + 1) * 2 ^ shift = v * 2 ^ shift + 2 ^ shift := by ring
        omega
      rw [Nat.mod_eq_of_lt hbound]
      rw [if_pos h128, Nat.add_comm]
    · rw [encodeVarintTikvpb, if_neg h128]
      rw [List.cons_append, readVarintLoop]
      rw [if_neg (by omega)]
      simp only
      have hshift7 : shift ≤ 56 := by
        by_contra hc
        have h1 : 64 - shift ≤ 7 := by omega
        have h2 : (2 : Nat) ^ (64 - shift) ≤ 2 ^ 7 :=
          Nat.pow_le_pow_right (by omega) h1
        norm_num at h2
        omega
      have hmod : (v % 128 + 128) &&& 0x7f = v % 128 := by
        rw [and_127_eq_mod]
        omega
      rw [hmod]
      have haccmod : acc ||| (v % 128) <<< shift = v % 128 * 2 ^ shift + acc :=
        lor_shiftLeft_eq_add acc (v % 128) shift hacc
      rw [haccmod]
      have hacc2 : v % 128 * 2 ^ shift + acc < 2 ^ (shift + 7) := by
        have h1 : v % 128 ≤ 127 := by omega
        have h2 : v % 128 * 2 ^ shift ≤ 127 * 2 ^ shift :=
          Nat.mul_le_mul_right _ h1
        have h3 : (2 : Nat) ^ (shift + 7) = 128 * 2 ^ shift := by
          rw [pow_add]
          ring
        omega
      have hacc64 : v % 128 * 2 ^ shift + acc < 2 ^ 64 := by
        have h1 : (2 : Nat) ^ (shift + 7) ≤ 2 ^ 64 :=
          Nat.pow_le_pow_right (by omega) (by omega)
        omega
      rw [Nat.mod_eq_of_lt hacc64]
      rw [if_neg (by omega)]
      have hrec := ih (v / 128) (Nat.div_lt_self (by omega) (by omega))
        (shift + 7) (v % 128 * 2 ^ shift + acc) rest
        (by omega)
        (by
          rw [Nat.div_lt_iff_lt_mul (by omega : (0 : Nat) < 128)]
          have h3 : (2 : Nat) ^ (64 - (shift + 7)) * 128 = 2 ^ (64 - shift) := by
            have h4 : (128 : Nat) = 2 ^ 7 := by norm_num
            rw [h4, ← pow_add]
            congr 1
            omega
          omega)
        hacc2
      rw [hrec]
      congr 1
      congr 1
      have hd : v = 128 * (v / 128) + v % 128 := (Nat.div_add_mod v 128).symm
      have h3 : (2 : Nat) ^ (shift + 7) = 2 ^ shift * 128 := by
        rw [pow_add]
        ring
      calc v % 128 * 2 ^ shift + acc + v / 128 * 2 ^ (shift + 7)
          = v % 128 * 2 ^ shift + acc + v / 128 * (2 ^ shift * 128) := by
            rw [h3]
        _ = (128 * (v / 128) + v % 128) * 2 ^ shift + acc := by ring
        _ = acc + v * 2 ^ shift := by rw [← hd]; ring
  
theorem readVarintLoop_encode_top (v : Nat) (rest : List Nat)
    (h : v < 2 ^ 64) :
    readVarintLoop 0 0 (encodeVarintTikvpb v ++ rest) = .ok (v, rest) := by
  have h2 := readVarintLoop_encode v 0 0 rest (by norm_num)
    (by simpa using h) (by norm_num)
  simpa using h2

theorem length_encodeVarint (v : Nat) :
    (encodeVarintTikvpb v).length = sovTikvpb v := by
  induction v using Nat.strong_induction_on with
  | _ v ih =>
    rw [encodeVarintTikvpb, sovTikvpb]
    have hsr : v >>> 7 = v / 128 := by
      rw [Nat.shiftRight_eq_div_pow]
    by_cases h128 : v < 128
    · rw [if_pos h128, if_pos (by rw [hsr]; omega)]
      rfl
    · rw [if_neg h128, if_neg (by rw [hsr]; omega)]
      simp only [List.length_cons]
      rw [ih (v / 128) (Nat.div_lt_self (by omega) (by omega))]
      rw [hsr]
      omega

theorem unmarshalLoop_frames (msgs : List (List Nat)) :
    ∀ acc unrec,
      (∀ b ∈ msgs, b.length < 2 ^ 63) →
      unmarshalLoop acc unrec
        (msgs.flatMap (fun msg => 0xa :: (encodeVarintTikvpb msg.length ++ msg))) =
        .ok ⟨acc ++ msgs, unrec⟩ := by
  induction msgs with
  | nil =>
    intro acc unrec hb
    simp [unmarshalLoop]
  | cons m rest ih =>
    intro acc unrec hb
    have hm63 : m.length < 2 ^ 63 := hb m (List.mem_cons_self m rest)
    have hm64 : m.length < 2 ^ 64 := lt_trans hm63 (by norm_num)
    have hflat : (m :: rest).flatMap
        (fun msg => 0xa :: (encodeVarintTikvpb msg.length ++ msg)) =
        0xa :: (encodeVarintTikvpb m.length ++
          (m ++ rest.flatMap (fun msg => 0xa :: (encodeVarintTikvpb msg.length ++ msg)))) := by
      simp [List.flatMap_cons, List.append_assoc]
    rw [hflat]
    have henc10 : encodeVarintTikvpb 0xa = [0xa] := by
      rw [encodeVarintTikvpb]
      norm_num
    have hv : readVarintLoop 0 0
        (0xa :: (encodeVarintTikvpb m.length ++
          (m ++ rest.flatMap (fun msg => 0xa :: (encodeVarintTikvpb msg.length ++ msg))))) =
        .ok (0xa, encodeVarintTikvpb m.length ++
          (m ++ rest.flatMap (fun msg => 0xa :: (encodeVarintTikvpb msg.length ++ msg)))) := by
      have h0 := readVarintLoop_encode_top 0xa
        (encodeVarintTikvpb m.length ++
          (m ++ rest.flatMap (fun msg => 0xa :: (encodeVarintTikvpb msg.length ++ msg))))
        (by norm_num)
      rw [henc10] at h0
      exact h0
    have hv2 : readVarintLoop 0 0
        (encodeVarintTikvpb m.length ++
          (m ++ rest.flatMap (fun msg => 0xa :: (encodeVarintTikvpb msg.length ++ msg)))) =
        .ok (m.length,
          m ++ rest.flatMap (fun msg => 0xa :: (encodeVarintTikvpb msg.length ++ msg))) :=
      readVarintLoop_encode_top m.length _ hm64
    rw [unmarshalLoop]
    split
    · rename_i heq
      rw [hv] at heq
      exact absurd heq (by simp)
    · rename_i heq
      rw [hv] at heq
      simp only [Except.ok.injEq, Prod.mk.injEq] at heq
      obtain ⟨hw, hr⟩ := heq
      subst hw
      subst hr
      rw [if_neg (by decide), if_neg (by decide), if_pos (by decide),
        if_neg (by decide)]
      split
      · rename_i heq2
        rw [hv2] at heq2
        exact absurd heq2 (by simp)
      · rename_i heq2
        rw [hv2] at heq2
        simp only [Except.ok.injEq, Prod.mk.injEq] at heq2
        obtain ⟨hl, hr2⟩ := heq2
        subst hl
        subst hr2
        rw [if_neg (by omega)]
        rw [if_neg (by rw [List.length_append]; omega)]
        rw [List.take_left' rfl, List.drop_left' rfl]
        rw [ih (acc ++ [m]) unrec
          (fun b hb2 => hb b (List.mem_cons_of_mem m hb2))]
        simp

/-- C10 (amended): For every `BatchRaftMessage` value `m` with no
unrecognized bytes (`XXX_unrecognized` empty) and every nested element's
encoding shorter than `2^63` bytes (always true of a real Go slice),
unmarshalling the bytes produced by `Marshal(m)` yields `m`; and for every
`m` whatsoever, `Size(m)` equals the number of bytes `Marshal(m)`
produces. -/
theorem C10_batch_raft_message (m : BatchRaftMessage) :
    (m.xxxUnrecognized = [] → (∀ b ∈ m.msgs, b.length < 2 ^ 63) →
      BatchRaftMessage.Unmarshal (BatchRaftMessage.Marshal m) = .ok m) ∧
    (BatchRaftMessage.Marshal m).length = m.Size := by
  constructor
  · intro hx hb
    rcases m with ⟨msgs, xxx⟩
    simp only at hx hb
    subst hx
    rw [BatchRaftMessage.Unmarshal, BatchRaftMessage.Marshal,
      BatchRaftMessage.MarshalTo]
    simp only [List.append_nil]
    have h2 := unmarshalLoop_frames msgs [] [] hb
    simpa using h2
  · rcases m with ⟨msgs, xxx⟩
    rw [BatchRaftMessage.Marshal, BatchRaftMessage.MarshalTo,
      BatchRaftMessage.Size]
    simp only [List.length_append]
    congr 1
    induction msgs with
    | nil => rfl
    | cons m2 rest ih =>
      simp only [List.flatMap_cons, List.length_append, List.map_cons,
        List.sum_cons, List.length_cons]
      rw [length_encodeVarint]
      omega

/-- C10 counterexample: the message with no elements and the single
unrecognized byte `0x0c` (an end-group tag) marshals to `[0x0c]`, which
`Unmarshal` rejects with the end-group error instead of reproducing the
message, refuting the unqualified round-trip claim. -/
theorem C10_counterexample :
    BatchRaftMessage.Unmarshal
      (BatchRaftMessage.Marshal ⟨[], [0x0c]⟩) ≠ .ok ⟨[], [0x0c]⟩ := by
  have h1 : BatchRaftMessage.Marshal ⟨[], [0x0c]⟩ = [0x0c] := rfl
  have hv : readVarintLoop 0 0 [0x0c] = .ok (0x0c, []) := rfl
  have h2 : BatchRaftMessage.Unmarshal [0x0c] = .error .endGroupNonGroup := by
    rw [BatchRaftMessage.Unmarshal, unmarshalLoop]
    split
    · rename_i heq
      rw [hv] at heq
      exact absurd heq (by simp)
    · rename_i heq
      rw [hv] at heq
      simp only [Except.ok.injEq, Prod.mk.injEq] at heq
      obtain ⟨hw, hr⟩ := heq
      subst hw
      subst hr
      rw [if_pos (by decide)]
  rw [h1, h2]
  simp

theorem C10_witness :
    BatchRaftMessage.Unmarshal (BatchRaftMessage.Marshal ⟨[[7, 8], []], []⟩) =
      .ok ⟨[[7, 8], []], []⟩ :=
  (C10_batch_raft_message ⟨[[7, 8], []], []⟩).1 rfl (by decide)

theorem C1_witness :
    mvccGet (⟨[(encodeKey [97] 10, [118])], [],
      [(encodeKey [97] 11, ⟨10, .put⟩)]⟩ : State) [97] 11 = .ok (some [118]) := by
  have h := ((C1_get_semantics
      (⟨[(encodeKey [97] 10, [118])], [],
        [(encodeKey [97] 11, ⟨10, .put⟩)]⟩ : State) [97] 11).2
    (fun l hl => nomatch hl)).2 11 ⟨10, .put⟩
    (show _ ∧ _ ∧ _ from ⟨by decide, by decide, by decide⟩)
  have h2 := h.1 rfl
  rw [h2]
  rfl

theorem C2_witness :
    alGet (prewrite (⟨[], [], []⟩ : State) 7 3 [97]
      [⟨[97], .put [5]⟩]).2.cfLock [97] = some ⟨[97], 7, 3, .put⟩ :=
  (C2_prewrite_key_checks (⟨[], [], []⟩ : State) 7 3 [97]
    [⟨[97], .put [5]⟩] ⟨[97], .put [5]⟩).2.2
    (by decide) (by decide) rfl rfl

theorem C3_witness :
    (prewrite (⟨[], [([97], ⟨[97], 5, 3, .put⟩)], []⟩ : State) 9 3 [97]
      [⟨[97], .del⟩]).2 = (⟨[], [([97], ⟨[97], 5, 3, .put⟩)], []⟩ : State) :=
  (C3_prewrite_batch_atomic (⟨[], [([97], ⟨[97], 5, 3, .put⟩)], []⟩ : State)
    9 3 [97] [⟨[97], .del⟩]
    ⟨⟨[97], .del⟩, by decide, by decide⟩).2.2

end TinyKV


